import Mathlib

/-!
Verification of the table-reconstruction core of the Mistral_Markitdown
repository.  The definitions below are shallow embeddings of the Python
functions in `src/local_converter.py`, `src/mistral_converter.py` and the
table payload parser of `src/mistral_converter.py`; strings are modelled
as Lean `String`/`List Char`, pandas frames as lists of named columns or
lists of rows, and Python floats as exact rationals.
-/

namespace Spec2Proof

/-! ## Basic character/string helpers (Python `str.strip`, `str.lower`, …) -/

/-- Python `str.strip` whitespace class (the ASCII part used by this data). -/
def isSpc (c : Char) : Bool :=
  c = ' ' || c = '\t' || c = '\n' || c = '\r' || c = '\x0b' || c = '\x0c'

/-- ASCII lower-casing of one character (Python `str.lower` on this data). -/
def lowerChar (c : Char) : Char :=
  if 'A' ≤ c ∧ c ≤ 'Z' then Char.ofNat (c.toNat + 32) else c

def lowerStr (s : String) : String := ⟨s.data.map lowerChar⟩

/-- Remove leading whitespace from a character list. -/
def trimLeft (cs : List Char) : List Char := cs.dropWhile isSpc

/-- Remove trailing whitespace from a character list. -/
def trimRight (cs : List Char) : List Char :=
  (cs.reverse.dropWhile isSpc).reverse

/-- Python `str.strip` on a character list. -/
def stripChars (cs : List Char) : List Char := trimRight (trimLeft cs)

/-- Python `str.strip` on a string. -/
def strip (s : String) : String := ⟨stripChars s.data⟩

/-- `pat` is a prefix of `s` (decidable, executable). -/
def isPrefixB : List Char → List Char → Bool
  | [], _ => true
  | _ :: _, [] => false
  | a :: as, b :: bs => a = b && isPrefixB as bs

/-- `pat` occurs as a contiguous substring of `s` (Python `in` on strings). -/
def isSubstrB (pat : List Char) : List Char → Bool
  | [] => isPrefixB pat []
  | b :: bs => isPrefixB pat (b :: bs) || isSubstrB pat bs

/-- Python `tok in s` for strings. -/
def strContains (s tok : String) : Bool := isSubstrB tok.data s.data

/-! ## Header Classifier — `looks_like_tb_header` (src/local_converter.py:395) -/

/-- The fixed `HEADER_TOKENS` vocabulary of `looks_like_tb_header`. -/
def HEADER_TOKENS : List String :=
  ["acct", "account", "account title", "beginning balance", "current balance",
   "january", "february", "march", "april", "may", "june",
   "july", "august", "september", "october", "november", "december"]

/-- Python `" ".join(parts)`. -/
def joinSpace : List String → String
  | [] => ""
  | [s] => s
  | s :: rest => s ++ " " ++ joinSpace rest

/-- The joined, lower-cased, stripped cell text built by
`looks_like_tb_header`:
`" ".join(str(c).lower().strip() for c in cells if c and str(c).strip())`. -/
def headerJoin (cells : List String) : String :=
  joinSpace ((cells.filter (fun c => c ≠ "" && strip c ≠ "")).map
    (fun c => strip (lowerStr c)))

/-- Number of distinct vocabulary tokens occurring in the joined cell text. -/
def headerHits (cells : List String) : Nat :=
  HEADER_TOKENS.countP (fun tok => strContains (headerJoin cells) tok)

/-- Embedding of `looks_like_tb_header` (src/local_converter.py:395-428):
empty input and all-blank input return `False`; otherwise the row is a
header iff at least 3 vocabulary tokens occur in the joined cell text, or
both balance labels occur. -/
def looks_like_tb_header (cells : List String) : Bool :=
  if cells = [] then false
  else
    let s := headerJoin cells
    if strip s = "" then false
    else
      decide (3 ≤ headerHits cells) ||
        (strContains s "beginning balance" && strContains s "current balance")

/-- The spec's decision rule, stated without the early-return guards:
≥ 3 distinct vocabulary tokens matched, or both balance labels present. -/
def headerRuleSpec (cells : List String) : Bool :=
  decide (3 ≤ headerHits cells) ||
    (strContains (headerJoin cells) "beginning balance" &&
      strContains (headerJoin cells) "current balance")

/-! ### Facts about substrings and all-whitespace strings -/

theorem mem_of_isPrefixB {p s : List Char} (h : isPrefixB p s = true) :
    ∀ c ∈ p, c ∈ s := by
  induction p generalizing s with
  | nil => intro c hc; cases hc
  | cons a as ih =>
    cases s with
    | nil => simp [isPrefixB] at h
    | cons b bs =>
      simp only [isPrefixB, Bool.and_eq_true, decide_eq_true_eq] at h
      intro c hc
      rcases List.mem_cons.mp hc with rfl | hc
      · exact h.1 ▸ List.mem_cons_self _ _
      · exact List.mem_cons_of_mem _ (ih h.2 c hc)

theorem mem_of_isSubstrB {p s : List Char} (h : isSubstrB p s = true) :
    ∀ c ∈ p, c ∈ s := by
  induction s with
  | nil => exact mem_of_isPrefixB h
  | cons b bs ih =>
    simp only [isSubstrB, Bool.or_eq_true] at h
    rcases h with h | h
    · exact mem_of_isPrefixB h
    · intro c hc; exact List.mem_cons_of_mem _ (ih h c hc)

theorem isSubstrB_eq_false_of_spaces {p s : List Char}
    (hs : ∀ c ∈ s, isSpc c = true) (hp : ∃ c ∈ p, isSpc c = false) :
    isSubstrB p s = false := by
  rcases hp with ⟨c, hcp, hcf⟩
  by_contra h
  rw [Bool.not_eq_false] at h
  have := hs c (mem_of_isSubstrB h c hcp)
  rw [this] at hcf
  cases hcf

theorem allSpc_of_trimRight_eq_nil {l : List Char}
    (h : trimRight l = []) : ∀ c ∈ l, isSpc c = true := by
  unfold trimRight at h
  rw [List.reverse_eq_nil_iff] at h
  intro c hc
  have hc' : c ∈ l.reverse := List.mem_reverse.mpr hc
  rcases (List.takeWhile_append_dropWhile (p := isSpc) (l := l.reverse)) ▸ hc'
    with h'
  rw [h, List.append_nil] at h'
  exact List.mem_takeWhile_imp h'

theorem allSpc_of_stripChars_eq_nil {l : List Char}
    (h : stripChars l = []) : ∀ c ∈ l, isSpc c = true := by
  unfold stripChars at h
  intro c hc
  have hsplit := List.takeWhile_append_dropWhile (p := isSpc) (l := l)
  rw [← hsplit] at hc
  rcases List.mem_append.mp hc with h' | h'
  · exact List.mem_takeWhile_imp h'
  · exact allSpc_of_trimRight_eq_nil h c h'

theorem headerTokens_nonspace :
    ∀ tok ∈ HEADER_TOKENS, ∃ c ∈ tok.data, isSpc c = false := by
  decide

/-- **C5.** `looks_like_tb_header` classifies a row as a header exactly when
at least 3 distinct tokens of the fixed vocabulary occur in its normalized
cell text, or both `beginning balance` and `current balance` occur; and a
row whose cells are all empty is never classified as a header. -/
theorem looks_like_tb_header_iff_rule (cells : List String) :
    looks_like_tb_header cells = headerRuleSpec cells ∧
      ((∀ c ∈ cells, c = "") → looks_like_tb_header cells = false) := by
  constructor
  · unfold looks_like_tb_header
    by_cases hnil : cells = []
    · subst hnil; decide
    · simp only [hnil, if_false]
      by_cases hblank : strip (headerJoin cells) = ""
      · simp only [hblank, if_pos rfl]
        have hall : ∀ c ∈ (headerJoin cells).data, isSpc c = true := by
          have : stripChars (headerJoin cells).data = [] := by
            have := congrArg String.data hblank
            exact this
          exact allSpc_of_stripChars_eq_nil this
        have hnosub : ∀ tok ∈ HEADER_TOKENS,
            strContains (headerJoin cells) tok = false := by
          intro tok htok
          exact isSubstrB_eq_false_of_spaces hall (headerTokens_nonspace tok htok)
        have hcount : headerHits cells = 0 := by
          unfold headerHits
          rw [List.countP_eq_zero]
          intro tok htok
          simp [hnosub tok htok]
        unfold headerRuleSpec
        rw [hcount]
        have h1 := hnosub "beginning balance" (by decide)
        rw [h1]
        simp
      · simp only [hblank, if_neg hblank]
        rfl
  · intro hempty
    unfold looks_like_tb_header
    by_cases hnil : cells = []
    · simp [hnil]
    · have hfilt : cells.filter (fun c => c ≠ "" && strip c ≠ "") = [] := by
        rw [List.filter_eq_nil_iff]
        intro c hc
        simp [hempty c hc]
      have hjoin : headerJoin cells = "" := by
        unfold headerJoin
        rw [hfilt]
        rfl
      have hs : strip "" = "" := rfl
      simp [hnil, hjoin, hs]

/-- Witness for C5 at the concrete all-empty row `["", ""]`. -/
theorem looks_like_tb_header_iff_rule_witness :
    looks_like_tb_header ["", ""] = false :=
  (looks_like_tb_header_iff_rule ["", ""]).2 (by intro c hc; fin_cases hc <;> rfl)

/-! ## Table Scorer — `score_table` (src/mistral_converter.py:747-774) -/

/-- `_norm` (src/mistral_converter.py:697): lower-case and drop every
character outside `a`-`z`. -/
def isLowerAZ (c : Char) : Bool := 'a' ≤ c && c ≤ 'z'

def normAZ (s : String) : String := ⟨(s.data.map lowerChar).filter isLowerAZ⟩

/-- The canonical 16-column schema (`canon_cols`). -/
def canon_cols : List String :=
  ["Acct", "Account Title", "Beginning Balance",
   "January", "February", "March", "April", "May", "June",
   "July", "August", "September", "October", "November", "December",
   "Current Balance"]

/-- `month_norms`: normalized names of every canonical column except
`Acct` and `Account Title` (14 names, both balance labels included). -/
def month_norms : List String :=
  (canon_cols.filter (fun c => c ≠ "Acct" && c ≠ "Account Title")).map normAZ

/-- A raw table candidate from the OCR payload: header strings plus rows
of string cells. -/
structure Candidate where
  columns : List String
  rows : List (List String)
deriving DecidableEq, Repr

/-- Embedding of `score_table` (src/mistral_converter.py:747-774), with
Python floats replaced by exact rationals. -/
def score_table (t : Candidate) : ℚ :=
  let cols := t.columns.map strip
  let ncols : ℤ := cols.length
  let cols_norm := cols.map normAZ
  let has_acctish : Bool := cols_norm.any (fun n =>
    isPrefixB "acct".data n.data || (strContains n "account" && strContains n "title"))
  let month_hits : ℕ := cols_norm.countP (fun n => month_norms.contains n)
  let row_bonus : ℚ := ((min t.rows.length 200 : ℕ) : ℚ) / 200
  let width_penalty : ℚ := (|ncols - 15| : ℤ) * (1/4 : ℚ)
  let bc_boost : ℚ :=
    if cols_norm.contains "beginningbalance" && cols_norm.contains "currentbalance"
    then 1 else 0
  2 * (if has_acctish then (1 : ℚ) else 0) + 2 * bc_boost
    + (3/2 : ℚ) * month_hits + row_bonus - width_penalty

/-- The 12 calendar month names. -/
def month_names : List String :=
  ["January", "February", "March", "April", "May", "June",
   "July", "August", "September", "October", "November", "December"]

/-- The score formula exactly as the claim states it: `2.0 × acct-like +
2.0 × both-balances + 1.5 × (count of header columns matching a canonical
month name) + min(row_count, 200)/200 − 0.25 × |column_count − 16|`. -/
def specScoreClaim (t : Candidate) : ℚ :=
  let cols_norm := t.columns.map (fun c => normAZ (strip c))
  (if cols_norm.any (fun n =>
      isPrefixB "acct".data n.data ||
        (strContains n "account" && strContains n "title")) then (2 : ℚ) else 0)
  + (if cols_norm.contains "beginningbalance" && cols_norm.contains "currentbalance"
     then (2 : ℚ) else 0)
  + (3/2 : ℚ) * (cols_norm.countP (fun n => (month_names.map normAZ).contains n))
  + ((min t.rows.length 200 : ℕ) : ℚ) / 200
  - (1/4 : ℚ) * |(t.columns.length : ℤ) - 16|

/-- The amended score formula: the 1.5× term counts header columns whose
normalized name matches any of the 14 canonical amount-column names (the
12 months **plus both balance labels**), and the width penalty is
`0.25 × |column_count − 15|`. -/
def specScoreAmended (t : Candidate) : ℚ :=
  let cols_norm := t.columns.map (fun c => normAZ (strip c))
  (if cols_norm.any (fun n =>
      isPrefixB "acct".data n.data ||
        (strContains n "account" && strContains n "title")) then (2 : ℚ) else 0)
  + (if cols_norm.contains "beginningbalance" && cols_norm.contains "currentbalance"
     then (2 : ℚ) else 0)
  + (3/2 : ℚ) * (cols_norm.countP (fun n =>
      ((["Beginning Balance"] ++ month_names ++ ["Current Balance"]).map normAZ).contains n))
  + ((min t.rows.length 200 : ℕ) : ℚ) / 200
  - (1/4 : ℚ) * |(t.columns.length : ℤ) - 15|

/-- A full canonical-header candidate with no rows, on which the code's
score and the claim's formula disagree. -/
def scoreCounterexampleCand : Candidate := { columns := canon_cols, rows := [] }

/-- **C1 counterexample.** On the 16-column canonical header the code
scores `2 + 2 + 1.5·14 − 0.25·1 = 24.75`, while the claim's formula gives
`2 + 2 + 1.5·12 − 0 = 22`: the code counts both balance labels in the
1.5× term and penalizes distance from 15 columns, not 16. -/
theorem score_table_ne_claim_formula :
    score_table scoreCounterexampleCand = 99/4 ∧
      specScoreClaim scoreCounterexampleCand = 22 ∧
      score_table scoreCounterexampleCand ≠ specScoreClaim scoreCounterexampleCand := by
  have e1 : score_table scoreCounterexampleCand = 99/4 := by
    show (2:ℚ) * 1 + 2 * 1 + (3/2) * ((14:ℕ):ℚ) + ((0:ℕ):ℚ)/200
        - ((1:ℤ):ℚ) * (1/4) = 99/4
    push_cast
    norm_num
  have e2 : specScoreClaim scoreCounterexampleCand = 22 := by
    show (2:ℚ) + 2 + (3/2) * ((12:ℕ):ℚ) + ((0:ℕ):ℚ)/200
        - (1/4) * ((0:ℤ):ℚ) = 22
    push_cast
    norm_num
  refine ⟨e1, e2, ?_⟩
  rw [e1, e2]
  norm_num

/-- **C1 (amended).** For every candidate, `score_table` equals `2.0 ×
acct-like + 2.0 × both-balances + 1.5 × (count of header columns matching
one of the 14 canonical amount-column names, balance labels included) +
min(row_count, 200)/200 − 0.25 × |column_count − 15|`. -/
theorem score_table_eq_amended_formula (t : Candidate) :
    score_table t = specScoreAmended t := by
  unfold score_table specScoreAmended
  have hnames : month_norms =
      (["Beginning Balance"] ++ month_names ++ ["Current Balance"]).map normAZ := by
    decide
  have hcols : (t.columns.map strip).map normAZ =
      t.columns.map (fun c => normAZ (strip c)) := by
    rw [List.map_map]; rfl
  have hlen : ((t.columns.map strip).length : ℤ) = (t.columns.length : ℤ) := by
    rw [List.length_map]
  simp only [hnames, hcols, hlen]
  rcases h : (t.columns.map fun c => normAZ (strip c)).any (fun n =>
      isPrefixB "acct".data n.data ||
        (strContains n "account" && strContains n "title")) with _ | _ <;>
    rcases h2 : (t.columns.map fun c => normAZ (strip c)).contains "beginningbalance"
        && (t.columns.map fun c => normAZ (strip c)).contains "currentbalance"
      with _ | _ <;>
    simp [h, h2] <;> ring

/-! ## Primary-table selection — `max(candidates, key=score_table)`
(src/mistral_converter.py:776-777).  Python `max` scans left to right and
replaces the current best only on a strictly greater key, so the first
candidate attaining the maximal score wins. -/

def pyMax (f : Candidate → ℚ) : Candidate → List Candidate → Candidate
  | b, [] => b
  | b, a :: as => pyMax f (if f b < f a then a else b) as

/-- `tb = max(candidates, key=score_table)` (`none` on the empty list,
which the caller guards against). -/
def selectPrimary (l : List Candidate) : Option Candidate :=
  match l with
  | [] => none
  | x :: xs => some (pyMax score_table x xs)

theorem pyMax_mem (f : Candidate → ℚ) (xs : List Candidate) (b : Candidate) :
    pyMax f b xs ∈ b :: xs := by
  induction xs generalizing b with
  | nil => simp [pyMax]
  | cons a as ih =>
    rw [pyMax]
    by_cases hc : f b < f a
    · rw [if_pos hc]
      rcases List.mem_cons.mp (ih a) with h | h
      · simp [h]
      · simp [List.mem_cons_of_mem, h]
    · rw [if_neg hc]
      rcases List.mem_cons.mp (ih b) with h | h
      · simp [h]
      · simp [List.mem_cons_of_mem, h]

theorem le_pyMax (f : Candidate → ℚ) (xs : List Candidate) (b : Candidate) :
    ∀ z ∈ b :: xs, f z ≤ f (pyMax f b xs) := by
  induction xs generalizing b with
  | nil => intro z hz; rw [List.mem_singleton.mp hz]; simp [pyMax]
  | cons a as ih =>
    intro z hz
    rw [pyMax]
    have hacc : f b ≤ f (if f b < f a then a else b) ∧
        f a ≤ f (if f b < f a then a else b) := by
      by_cases hc : f b < f a
      · rw [if_pos hc]; exact ⟨le_of_lt hc, le_refl _⟩
      · rw [if_neg hc]; exact ⟨le_refl _, not_lt.mp hc⟩
    rcases List.mem_cons.mp hz with rfl | hz
    · exact le_trans hacc.1 (ih _ _ (List.mem_cons_self _ _))
    · rcases List.mem_cons.mp hz with rfl | hz
      · exact le_trans hacc.2 (ih _ _ (List.mem_cons_self _ _))
      · exact ih _ _ (List.mem_cons_of_mem _ hz)

theorem pyMax_eq_of_le (f : Candidate → ℚ) (xs : List Candidate) (b : Candidate)
    (h : ∀ y ∈ xs, f y ≤ f b) : pyMax f b xs = b := by
  induction xs with
  | nil => rfl
  | cons a as ih =>
    rw [pyMax, if_neg (not_lt.mpr (h a (List.mem_cons_self _ _)))]
    exact ih (fun y hy => h y (List.mem_cons_of_mem _ hy))

theorem pyMax_first (f : Candidate → ℚ) (bs : List Candidate)
    (b x : Candidate) (l2 : List Candidate) (hb : f b < f x)
    (h1 : ∀ y ∈ bs, f y < f x) (h2 : ∀ y ∈ l2, f y ≤ f x) :
    pyMax f b (bs ++ x :: l2) = x := by
  induction bs generalizing b with
  | nil =>
    rw [List.nil_append, pyMax, if_pos hb]
    exact pyMax_eq_of_le f l2 x h2
  | cons a as ih =>
    rw [List.cons_append, pyMax]
    have ha : f a < f x := h1 a (List.mem_cons_self _ _)
    have : f (if f b < f a then a else b) < f x := by split <;> assumption
    exact ih _ this (fun y hy => h1 y (List.mem_cons_of_mem _ hy))

theorem mem_first_split {x : Candidate} {l : List Candidate} (h : x ∈ l) :
    ∃ s t, l = s ++ x :: t ∧ x ∉ s := by
  induction l with
  | nil => cases h
  | cons a as ih =>
    by_cases hax : a = x
    · exact ⟨[], as, by rw [hax, List.nil_append], List.not_mem_nil x⟩
    · rcases ih (List.mem_of_ne_of_mem (fun hx => hax hx.symm) h) with ⟨s, t, hst, hxs⟩
      exact ⟨a :: s, t, by rw [hst, List.cons_append],
        fun hx => (List.mem_cons.mp hx).elim (fun hx => hax hx.symm) hxs⟩

/-- **C3 counterexample.** Two distinct candidates with equal scores:
`max` selects whichever comes first, so permuting the input list changes
the selected primary table. -/
theorem selectPrimary_not_perm_invariant :
    List.Perm [Candidate.mk ["x"] [], Candidate.mk ["y"] []]
        [Candidate.mk ["y"] [], Candidate.mk ["x"] []] ∧
      selectPrimary [Candidate.mk ["x"] [], Candidate.mk ["y"] []] =
        some (Candidate.mk ["x"] []) ∧
      selectPrimary [Candidate.mk ["y"] [], Candidate.mk ["x"] []] =
        some (Candidate.mk ["y"] []) ∧
      Candidate.mk ["x"] [] ≠ Candidate.mk ["y"] [] := by
  have hs : score_table (Candidate.mk ["x"] []) =
      score_table (Candidate.mk ["y"] []) := rfl
  have hno : ¬ score_table (Candidate.mk ["x"] []) <
      score_table (Candidate.mk ["y"] []) := not_lt.mpr (le_of_eq hs.symm)
  have hno' : ¬ score_table (Candidate.mk ["y"] []) <
      score_table (Candidate.mk ["x"] []) := not_lt.mpr (le_of_eq hs)
  refine ⟨List.Perm.swap _ _ _, ?_, ?_, by decide⟩
  · show some (pyMax score_table (Candidate.mk ["x"] [])
      [Candidate.mk ["y"] []]) = _
    rw [pyMax, if_neg hno, pyMax]
  · show some (pyMax score_table (Candidate.mk ["y"] [])
      [Candidate.mk ["x"] []]) = _
    rw [pyMax, if_neg hno', pyMax]

/-- **C3 (amended).** Primary-table selection is deterministic: the
selected candidate is a member attaining the maximal score; among
candidates tied at the maximal score the first-seen one is selected; and
permuting the candidate list preserves the selection whenever a unique
candidate attains the maximal score. -/
theorem selectPrimary_deterministic :
    (∀ l x, selectPrimary l = some x →
      x ∈ l ∧ ∀ y ∈ l, score_table y ≤ score_table x) ∧
    (∀ l1 x l2, (∀ y ∈ l1, score_table y < score_table x) →
      (∀ y ∈ l2, score_table y ≤ score_table x) →
      selectPrimary (l1 ++ x :: l2) = some x) ∧
    (∀ l l', List.Perm l l' → ∀ x, x ∈ l →
      (∀ y ∈ l, y ≠ x → score_table y < score_table x) →
      selectPrimary l = some x ∧ selectPrimary l' = some x) := by
  have hfirst : ∀ l1 x l2, (∀ y ∈ l1, score_table y < score_table x) →
      (∀ y ∈ l2, score_table y ≤ score_table x) →
      selectPrimary (l1 ++ x :: l2) = some x := by
    intro l1 x l2 h1 h2
    cases l1 with
    | nil =>
      rw [List.nil_append]
      show some (pyMax score_table x l2) = some x
      rw [pyMax_eq_of_le score_table l2 x h2]
    | cons b bs =>
      rw [List.cons_append]
      show some (pyMax score_table b (bs ++ x :: l2)) = some x
      rw [pyMax_first score_table bs b x l2 (h1 b (List.mem_cons_self _ _))
        (fun y hy => h1 y (List.mem_cons_of_mem _ hy)) h2]
  have huniqSel : ∀ l x, x ∈ l →
      (∀ y ∈ l, y ≠ x → score_table y < score_table x) →
      selectPrimary l = some x := by
    intro l x hx huniq
    rcases mem_first_split hx with ⟨s, t, rfl, hxs⟩
    refine hfirst s x t (fun y hy => huniq y ?_ ?_) (fun y hy => ?_)
    · exact List.mem_append.mpr (Or.inl hy)
    · rintro rfl; exact hxs hy
    · by_cases hyx : y = x
      · rw [hyx]
      · exact le_of_lt (huniq y
          (List.mem_append.mpr (Or.inr (List.mem_cons_of_mem _ hy))) hyx)
  refine ⟨?_, hfirst, ?_⟩
  · intro l x hsel
    cases l with
    | nil => cases hsel
    | cons h t =>
      have hx : pyMax score_table h t = x := by
        have := hsel
        simp only [selectPrimary, Option.some.injEq] at this
        exact this
      exact ⟨hx ▸ pyMax_mem score_table t h, fun y hy => hx ▸ le_pyMax score_table t h y hy⟩
  · intro l l' hperm x hx huniq
    refine ⟨huniqSel l x hx huniq, huniqSel l' x (hperm.mem_iff.mp hx) ?_⟩
    intro y hy hyx
    exact huniq y (hperm.mem_iff.mpr hy) hyx

/-- Witness for C3 (amended) at two concrete candidates with distinct
scores: the higher-scoring `["Acct"]` candidate is selected in either
input order. -/
theorem selectPrimary_deterministic_witness :
    selectPrimary [Candidate.mk ["Acct"] [], Candidate.mk ["x"] []] =
        some (Candidate.mk ["Acct"] []) ∧
      selectPrimary [Candidate.mk ["x"] [], Candidate.mk ["Acct"] []] =
        some (Candidate.mk ["Acct"] []) := by
  have hlo : score_table (Candidate.mk ["x"] []) = -7/2 := by
    show (2:ℚ) * 0 + 2 * 0 + (3/2) * ((0:ℕ):ℚ) + ((0:ℕ):ℚ)/200
        - ((14:ℤ):ℚ) * (1/4) = -7/2
    push_cast
    norm_num
  have hhi : score_table (Candidate.mk ["Acct"] []) = -3/2 := by
    show (2:ℚ) * 1 + 2 * 0 + (3/2) * ((0:ℕ):ℚ) + ((0:ℕ):ℚ)/200
        - ((14:ℤ):ℚ) * (1/4) = -3/2
    push_cast
    norm_num
  have hlt : score_table (Candidate.mk ["x"] []) <
      score_table (Candidate.mk ["Acct"] []) := by
    rw [hlo, hhi]; norm_num
  have h := (selectPrimary_deterministic.2.2)
    [Candidate.mk ["Acct"] [], Candidate.mk ["x"] []]
    [Candidate.mk ["x"] [], Candidate.mk ["Acct"] []]
    (List.Perm.swap _ _ _)
    (Candidate.mk ["Acct"] [])
    (List.mem_cons_self _ _)
    (by
      intro y hy hne
      rcases List.mem_cons.mp hy with rfl | hy
      · exact absurd rfl hne
      · rcases List.mem_cons.mp hy with rfl | hy
        · exact hlt
        · cases hy)
  exact h

/-! ## Coalescer / Deduplicator —
`all_merged.sort_values(["Acct","Account Title"]).drop_duplicates(subset=["Acct","Account Title"], keep="last")`
(src/local_converter.py:1008-1010).  pandas sorts on two keys with the
stable `lexsort`, and `keep="last"` keeps, for each key, the row at the
last position among its duplicates. -/

/-- A row already projected onto the canonical schema: account code,
account title, and the 14 amount cells. -/
structure CanonRow where
  acct : String
  title : String
  amounts : List String
deriving DecidableEq, Repr

/-- Lexicographic comparison of character lists (Python / numpy string
ordering by code point). -/
def charLtB : List Char → List Char → Bool
  | [], [] => false
  | [], _ :: _ => true
  | _ :: _, [] => false
  | a :: as, b :: bs => decide (a < b) || (a = b && charLtB as bs)

def strLtB (a b : String) : Bool := charLtB a.data b.data

/-- The deduplication key `(Acct, Account Title)`. -/
def rowKey (r : CanonRow) : String × String := (r.acct, r.title)

/-- Lexicographic order on `(Acct, Account Title)` pairs, as
`sort_values(["Acct", "Account Title"])` orders rows. -/
def keyLtB (k1 k2 : String × String) : Bool :=
  strLtB k1.1 k2.1 || (k1.1 = k2.1 && strLtB k1.2 k2.2)

/-- Stable insertion of a row: the new row goes after every
already-placed row whose key is strictly smaller, i.e. before the first
row with an equal or larger key — so equal keys keep input order. -/
def insortRow (x : CanonRow) : List CanonRow → List CanonRow
  | [] => [x]
  | y :: ys =>
    if keyLtB (rowKey y) (rowKey x) then y :: insortRow x ys
    else x :: y :: ys

/-- Stable sort by `(Acct, Account Title)`. -/
def sortRows : List CanonRow → List CanonRow
  | [] => []
  | x :: xs => insortRow x (sortRows xs)

/-- `drop_duplicates(subset=["Acct","Account Title"], keep="last")`:
a row is kept iff no later row has the same key. -/
def dedupKeepLast : List CanonRow → List CanonRow
  | [] => []
  | r :: rest =>
    if rest.any (fun r2 => decide (rowKey r2 = rowKey r))
    then dedupKeepLast rest
    else r :: dedupKeepLast rest

/-- The Coalescer's sort-then-deduplicate step. -/
def coalesceRows (l : List CanonRow) : List CanonRow :=
  dedupKeepLast (sortRows l)

theorem charLtB_irrefl (l : List Char) : charLtB l l = false := by
  induction l with
  | nil => rfl
  | cons a as ih =>
    simp [charLtB, ih, lt_irrefl]

theorem keyLtB_irrefl (k : String × String) : keyLtB k k = false := by
  unfold keyLtB strLtB
  simp [charLtB_irrefl]

theorem filter_insortRow_of_key_eq (x : CanonRow) (k : String × String)
    (hx : rowKey x = k) (s : List CanonRow) :
    (insortRow x s).filter (fun r => decide (rowKey r = k)) =
      x :: s.filter (fun r => decide (rowKey r = k)) := by
  induction s with
  | nil => simp [insortRow, hx]
  | cons y ys ih =>
    rw [insortRow]
    by_cases hc : keyLtB (rowKey y) (rowKey x) = true
    · have hyk : ¬ (rowKey y = k) := by
        intro hk
        rw [hk, hx, keyLtB_irrefl] at hc
        cases hc
      rw [if_pos hc]
      simp only [List.filter_cons, decide_eq_true_eq]
      rw [if_neg (by simpa using hyk), if_neg (by simpa using hyk)]
      exact ih
    · rw [if_neg hc]
      simp only [List.filter_cons, decide_eq_true_eq]
      rw [if_pos (by simpa using hx)]

theorem filter_insortRow_of_key_ne (x : CanonRow) (k : String × String)
    (hx : ¬ (rowKey x = k)) (s : List CanonRow) :
    (insortRow x s).filter (fun r => decide (rowKey r = k)) =
      s.filter (fun r => decide (rowKey r = k)) := by
  induction s with
  | nil => simp [insortRow, hx]
  | cons y ys ih =>
    rw [insortRow]
    by_cases hc : keyLtB (rowKey y) (rowKey x) = true
    · rw [if_pos hc]
      simp only [List.filter_cons]
      rw [ih]
    · rw [if_neg hc]
      simp only [List.filter_cons, decide_eq_true_eq]
      rw [if_neg (by simpa using hx)]

/-- Key-filtering commutes with the stable sort: the rows with a given
`(Acct, Account Title)` key appear in the sorted list in their original
order. -/
theorem filter_sortRows (l : List CanonRow) (k : String × String) :
    (sortRows l).filter (fun r => decide (rowKey r = k)) =
      l.filter (fun r => decide (rowKey r = k)) := by
  induction l with
  | nil => rfl
  | cons x xs ih =>
    rw [sortRows]
    by_cases hx : rowKey x = k
    · rw [filter_insortRow_of_key_eq x k hx, ih]
      simp only [List.filter_cons, decide_eq_true_eq]
      rw [if_pos (by simpa using hx)]
    · rw [filter_insortRow_of_key_ne x k hx, ih]
      simp only [List.filter_cons, decide_eq_true_eq]
      rw [if_neg (by simpa using hx)]

theorem any_eq_false_iff_filter_eq_nil (l : List CanonRow) (k : String × String) :
    (l.any (fun r2 => decide (rowKey r2 = k)) = false) ↔
      l.filter (fun r => decide (rowKey r = k)) = [] := by
  rw [List.filter_eq_nil_iff]
  rw [← Bool.not_eq_true, List.any_eq_true]
  constructor
  · intro h r hr
    simp only [decide_eq_true_eq]
    intro hk
    exact h ⟨r, hr, by simpa using hk⟩
  · rintro h ⟨r, hr, hk⟩
    exact (by simpa using h r hr : ¬ (rowKey r = k)) (by simpa using hk)

theorem filter_cons_key_eq (r : CanonRow) (rest : List CanonRow)
    (k : String × String) (h : rowKey r = k) :
    (r :: rest).filter (fun x => decide (rowKey x = k)) =
      r :: rest.filter (fun x => decide (rowKey x = k)) := by
  simp [List.filter_cons, h]

theorem filter_cons_key_ne (r : CanonRow) (rest : List CanonRow)
    (k : String × String) (h : ¬ (rowKey r = k)) :
    (r :: rest).filter (fun x => decide (rowKey x = k)) =
      rest.filter (fun x => decide (rowKey x = k)) := by
  simp [List.filter_cons, h]

theorem dedupKeepLast_cons (r : CanonRow) (rest : List CanonRow) :
    dedupKeepLast (r :: rest) =
      if rest.any (fun r2 => decide (rowKey r2 = rowKey r))
      then dedupKeepLast rest
      else r :: dedupKeepLast rest := rfl

/-- Key-filtering commutes with `keep="last"` deduplication. -/
theorem filter_dedupKeepLast (m : List CanonRow) (k : String × String) :
    (dedupKeepLast m).filter (fun r => decide (rowKey r = k)) =
      dedupKeepLast (m.filter (fun r => decide (rowKey r = k))) := by
  induction m with
  | nil => rfl
  | cons r rest ih =>
    rw [dedupKeepLast_cons]
    by_cases hrk : rowKey r = k
    · have hany : (rest.any (fun r2 => decide (rowKey r2 = rowKey r))) =
          (rest.any (fun r2 => decide (rowKey r2 = k))) := by
        rw [hrk]
      by_cases hc : rest.any (fun r2 => decide (rowKey r2 = k)) = true
      · rw [if_pos (hany ▸ hc), ih, filter_cons_key_eq r rest k hrk,
          dedupKeepLast_cons]
        have hfany : (rest.filter (fun r2 => decide (rowKey r2 = k))).any
            (fun r2 => decide (rowKey r2 = rowKey r)) = true := by
          rcases List.any_eq_true.mp hc with ⟨w, hw, hwk⟩
          refine List.any_eq_true.mpr ⟨w, List.mem_filter.mpr ⟨hw, hwk⟩, ?_⟩
          simp only [decide_eq_true_eq] at hwk ⊢
          rw [hwk, hrk]
        rw [if_pos hfany]
      · have hcf : rest.any (fun r2 => decide (rowKey r2 = k)) = false :=
          Bool.not_eq_true _ ▸ hc
        rw [if_neg (by rw [hany]; exact hc), filter_cons_key_eq r rest k hrk,
          filter_cons_key_eq r (dedupKeepLast rest) k hrk, ih,
          dedupKeepLast_cons]
        have hnil : rest.filter (fun r2 => decide (rowKey r2 = k)) = [] :=
          (any_eq_false_iff_filter_eq_nil rest k).mp hcf
        rw [hnil]
        simp
    · by_cases hc : rest.any (fun r2 => decide (rowKey r2 = rowKey r)) = true
      · rw [if_pos hc, ih, filter_cons_key_ne r rest k hrk]
      · rw [if_neg hc, filter_cons_key_ne r (dedupKeepLast rest) k hrk, ih,
          filter_cons_key_ne r rest k hrk]

/-- On a list whose rows all share one key, `keep="last"` keeps exactly
the last row. -/
theorem dedupKeepLast_all_same_key (m : List CanonRow) (k : String × String)
    (h : ∀ r ∈ m, rowKey r = k) : dedupKeepLast m = m.getLast?.toList := by
  induction m with
  | nil => rfl
  | cons r rest ih =>
    rw [dedupKeepLast_cons]
    cases rest with
    | nil => simp [dedupKeepLast]
    | cons r2 rest' =>
      have hany : ((r2 :: rest').any (fun x => decide (rowKey x = rowKey r))) = true := by
        refine List.any_eq_true.mpr ⟨r2, List.mem_cons_self _ _, ?_⟩
        simp only [decide_eq_true_eq]
        rw [h r2 (List.mem_cons_of_mem _ (List.mem_cons_self _ _)),
          h r (List.mem_cons_self _ _)]
      rw [if_pos hany, ih (fun x hx => h x (List.mem_cons_of_mem _ hx))]
      rw [List.getLast?_cons_cons]

/-- **C2.** After the Coalescer sorts the merged canonical rows by
`(Acct, Account Title)` and deduplicates with `keep="last"`, every key
shared by two or more rows retains exactly one row: the last-seen one
(the row contributed by the later-processed candidate). -/
theorem coalesceRows_keeps_last_seen (l : List CanonRow) (k : String × String)
    (hdup : 2 ≤ (l.filter (fun r => decide (rowKey r = k))).length) :
    ∃ last, (l.filter (fun r => decide (rowKey r = k))).getLast? = some last ∧
      (coalesceRows l).filter (fun r => decide (rowKey r = k)) = [last] := by
  have hne : l.filter (fun r => decide (rowKey r = k)) ≠ [] := by
    intro h
    rw [h] at hdup
    simp at hdup
  rcases List.getLast?_eq_getLast _ hne ▸ Option.isSome_some with _
  refine ⟨(l.filter (fun r => decide (rowKey r = k))).getLast hne,
    List.getLast?_eq_getLast _ hne, ?_⟩
  unfold coalesceRows
  rw [filter_dedupKeepLast, filter_sortRows]
  rw [dedupKeepLast_all_same_key _ k ?hk]
  · rw [List.getLast?_eq_getLast _ hne]
    rfl
  case hk =>
    intro r hr
    have := List.mem_filter.mp hr
    simpa using this.2

/-- Witness for C2: three concrete rows, two sharing the key
`("1000", "Cleaning")`; the later row (amount 900) is the one kept. -/
theorem coalesceRows_keeps_last_seen_witness :
    ∃ last,
      (([⟨"1000", "Cleaning", ["850"]⟩, ⟨"2000", "Other", ["1"]⟩,
         ⟨"1000", "Cleaning", ["900"]⟩] : List CanonRow).filter
          (fun r => decide (rowKey r = ("1000", "Cleaning")))).getLast? = some last ∧
      (coalesceRows [⟨"1000", "Cleaning", ["850"]⟩, ⟨"2000", "Other", ["1"]⟩,
         ⟨"1000", "Cleaning", ["900"]⟩]).filter
          (fun r => decide (rowKey r = ("1000", "Cleaning"))) = [last] :=
  coalesceRows_keeps_last_seen
    [⟨"1000", "Cleaning", ["850"]⟩, ⟨"2000", "Other", ["1"]⟩,
     ⟨"1000", "Cleaning", ["900"]⟩] ("1000", "Cleaning") (by decide)

/-! ## Row retention — `_drop_blank_rows` (src/local_converter.py:1036-1044)
and the "no usable rows" outcome (src/local_converter.py:1044-1049). -/

/-- A cell is blank after the Coalescer's
`replace({None: "", "nan": "", "NaN": ""})` and `str.strip` steps. -/
def blankCell (c : String) : Bool :=
  strip (if c = "nan" || c = "NaN" then "" else c) = ""

/-- Embedding of `_drop_blank_rows`: a row is dropped iff its
`Account Title` is blank *and* all 14 amount cells are blank. -/
def dropBlankRows (rows : List CanonRow) : List CanonRow :=
  rows.filter (fun r => !(blankCell r.title && r.amounts.all blankCell))

/-- Drop one expected leading character, if present (models one optional
literal of the amount regex, e.g. `\$?`). -/
def dropHead (c : Char) : List Char → List Char
  | [] => []
  | x :: r => if x = c then r else x :: r

/-- The repository's amount-shape test
`^\s*\$?\(?-?[\d,]+(\.\d{1,2})?\)?\s*$` (the `is_amount` regex of
`reshape_financial_table` and the `any_amount_mask` regex of
`write_tables_from_ocr`), as a deterministic character parser. -/
def is_amount (s : String) : Bool :=
  let t4 := dropHead '-' (dropHead '(' (dropHead '$' (s.data.dropWhile isSpc)))
  let ds := t4.takeWhile (fun c => c.isDigit || c = ',')
  let r1 := t4.dropWhile (fun c => c.isDigit || c = ',')
  if ds.isEmpty then false
  else
    match r1 with
    | '.' :: rest =>
      let fd := rest.takeWhile Char.isDigit
      (fd.length = 1 || fd.length = 2) &&
        ((dropHead ')' (rest.dropWhile Char.isDigit)).dropWhile isSpc).isEmpty
    | _ => ((dropHead ')' r1).dropWhile isSpc).isEmpty

theorem mem_of_mem_dropHead {x c : Char} {l : List Char}
    (h : x ∈ dropHead c l) : x ∈ l := by
  cases l with
  | nil => cases h
  | cons y r =>
    rw [dropHead] at h
    by_cases hy : y = c
    · rw [if_pos hy] at h; exact List.mem_cons_of_mem _ h
    · rwa [if_neg hy] at h

theorem stripChars_ne_nil_of_nonspace {l : List Char} {c : Char}
    (hc : c ∈ l) (hcs : isSpc c = false) : stripChars l ≠ [] := by
  intro h
  have := allSpc_of_stripChars_eq_nil h c hc
  rw [this] at hcs
  cases hcs

theorem isSpc_eq_false_of_digit_or_comma {c : Char}
    (h : (c.isDigit || c = ',') = true) : isSpc c = false := by
  by_contra hs
  rw [Bool.not_eq_false] at hs
  have hd : ((((c = ' ' ∨ c = '\t') ∨ c = '\n') ∨ c = '\r') ∨ c = '\x0b') ∨
      c = '\x0c' := by
    simpa [isSpc] using hs
  rcases hd with ((((rfl | rfl) | rfl) | rfl) | rfl) | rfl <;> exact absurd h (by decide)

/-- A value matching the amount shape is never a blank cell. -/
theorem blankCell_eq_false_of_is_amount {v : String}
    (h : is_amount v = true) : blankCell v = false := by
  have hvn : v ≠ "nan" := by rintro rfl; exact absurd h (by decide)
  have hvN : v ≠ "NaN" := by rintro rfl; exact absurd h (by decide)
  have hds : ¬ ((dropHead '-' (dropHead '(' (dropHead '$'
      (v.data.dropWhile isSpc)))).takeWhile
        (fun c => c.isDigit || c = ',')).isEmpty = true := by
    intro hnil
    unfold is_amount at h
    rw [if_pos hnil] at h
    cases h
  have hmem : ∃ c ∈ v.data, isSpc c = false := by
    rcases hd : (dropHead '-' (dropHead '(' (dropHead '$'
        (v.data.dropWhile isSpc)))).takeWhile (fun c => c.isDigit || c = ',')
      with _ | ⟨c, cs⟩
    · rw [hd] at hds; exact absurd rfl hds
    · have hctw : c ∈ (dropHead '-' (dropHead '(' (dropHead '$'
          (v.data.dropWhile isSpc)))).takeWhile (fun c => c.isDigit || c = ',') := by
        rw [hd]; exact List.mem_cons_self _ _
      have hcp : (c.isDigit || c = ',') = true :=
        List.mem_takeWhile_imp (p := fun c => c.isDigit || decide (c = ',')) hctw
      have hcv : c ∈ v.data :=
        (List.dropWhile_sublist isSpc).subset
          (mem_of_mem_dropHead (mem_of_mem_dropHead (mem_of_mem_dropHead
            ((List.takeWhile_sublist _).subset hctw))))
      exact ⟨c, hcv, isSpc_eq_false_of_digit_or_comma hcp⟩
  rcases hmem with ⟨c, hcv, hcs⟩
  have hstrip : strip v ≠ "" := by
    intro hsv
    have : stripChars v.data = [] := congrArg String.data hsv
    exact stripChars_ne_nil_of_nonspace hcv hcs this
  unfold blankCell
  rw [if_neg (by simp [hvn, hvN])]
  simpa using hstrip

/-- **C7.** A row of the coalesced table with a non-blank `Account Title`
or at least one amount-shaped value among its 14 amount cells is always
retained by `_drop_blank_rows`; a row is dropped only when its title is
blank and every amount cell is blank. -/
theorem dropBlankRows_retention (rows : List CanonRow) (r : CanonRow) :
    (r ∈ rows →
      (blankCell r.title = false ∨ ∃ a ∈ r.amounts, is_amount a = true) →
      r ∈ dropBlankRows rows) ∧
    (r ∈ rows → r ∉ dropBlankRows rows →
      blankCell r.title = true ∧ ∀ a ∈ r.amounts, blankCell a = true) := by
  constructor
  · intro hr hkeep
    refine List.mem_filter.mpr ⟨hr, ?_⟩
    simp only [Bool.not_eq_true', Bool.and_eq_false_iff]
    rcases hkeep with hti | ⟨a, ha, hamt⟩
    · left; exact hti
    · right
      rw [List.all_eq_false]
      exact ⟨a, ha, by rw [blankCell_eq_false_of_is_amount hamt]; decide⟩
  · intro hr hout
    by_contra hcon
    rw [not_and_or] at hcon
    have hkeep : (!(blankCell r.title && r.amounts.all blankCell)) = true := by
      simp only [Bool.not_eq_true', Bool.and_eq_false_iff]
      rcases hcon with h | h
      · left; exact Bool.not_eq_true _ ▸ h
      · right
        rw [List.all_eq_false]
        push_neg at h
        rcases h with ⟨a, ha, hab⟩
        exact ⟨a, ha, hab⟩
    exact hout (List.mem_filter.mpr ⟨hr, hkeep⟩)

/-- Witness for C7: a titled row with an amount is retained; the row with
blank title and blank amounts is dropped, and the theorem recovers that
both its title and amounts are blank. -/
theorem dropBlankRows_retention_witness :
    (⟨"1000", "Cash", ["850"]⟩ : CanonRow) ∈
        dropBlankRows [⟨"1000", "Cash", ["850"]⟩, ⟨"x", "", [""]⟩] ∧
      (blankCell "" = true ∧ ∀ a ∈ ([""] : List String), blankCell a = true) := by
  constructor
  · exact (dropBlankRows_retention
      [⟨"1000", "Cash", ["850"]⟩, ⟨"x", "", [""]⟩] ⟨"1000", "Cash", ["850"]⟩).1
      (by decide)
      (Or.inr ⟨"850", by decide, by decide⟩)
  · exact (dropBlankRows_retention
      [⟨"1000", "Cash", ["850"]⟩, ⟨"x", "", [""]⟩] ⟨"x", "", [""]⟩).2
      (by decide) (by decide)

/-! ## "No usable rows" outcome (src/local_converter.py:1044-1049):
after cross-group merging, sorting/deduplication and blank-row dropping,
an empty result makes the pipeline skip the coalesced output entirely
(`if best.empty: … return`) instead of emitting an empty table. -/

/-- End of the Coalescer: concatenate every candidate's canonical rows in
processing order, sort + deduplicate, drop blank rows, and return `none`
("no usable rows") when nothing remains.  Zero candidates is legal input
and yields `none`. -/
def extractCoalesced (candidates : List (List CanonRow)) : Option (List CanonRow) :=
  let best := dropBlankRows (coalesceRows candidates.flatten)
  if best.isEmpty then none else some best

/-- **C10.** Zero candidates yield "no output"; zero usable rows after
all filtering yield "no usable rows"; and the pipeline never emits an
empty table: any emitted coalesced table is nonempty. -/
theorem extractCoalesced_no_usable_rows :
    extractCoalesced [] = none ∧
      (∀ cs, dropBlankRows (coalesceRows cs.flatten) = [] →
        extractCoalesced cs = none) ∧
      (∀ cs t, extractCoalesced cs = some t → t ≠ []) := by
  refine ⟨rfl, ?_, ?_⟩
  · intro cs h
    unfold extractCoalesced
    rw [h]
    rfl
  · intro cs t h ht
    unfold extractCoalesced at h
    by_cases hb : (dropBlankRows (coalesceRows cs.flatten)).isEmpty = true
    · rw [if_pos hb] at h
      cases h
    · rw [if_neg hb] at h
      have heq := Option.some.inj h
      rw [heq, ht] at hb
      exact hb rfl

/-- Witness for C10: a candidate set whose rows are all blank yields
`none`, and a usable candidate set yields a nonempty table. -/
theorem extractCoalesced_no_usable_rows_witness :
    extractCoalesced [[⟨"", "", [""]⟩]] = none ∧
      ([⟨"1000", "Cash", ["850"]⟩] : List CanonRow) ≠ [] := by
  constructor
  · exact extractCoalesced_no_usable_rows.2.1 [[⟨"", "", [""]⟩]] (by decide)
  · exact extractCoalesced_no_usable_rows.2.2 [[⟨"1000", "Cash", ["850"]⟩]]
      [⟨"1000", "Cash", ["850"]⟩] (by decide)

/-! ## Amount Normalizer — `normalize_amount`.

Both converters import `normalize_amount` from `utils`
(src/mistral_converter.py:687, src/local_converter.py:69-79) and apply it
to every amount cell, but its definition is not part of src/ — only its
importing modules and call sites are.  The definition below is therefore
modelled from the spec. -/

/-- Does the list start with the given character? -/
def headIs (c : Char) : List Char → Bool
  | [] => false
  | x :: _ => x = c

/-- The optional decimal part of the amount shape: empty, or a dot
followed by one or two digits. -/
def validFrac (l : List Char) : Bool :=
  match l with
  | [] => true
  | c :: rest =>
    c = '.' && !rest.isEmpty && decide (rest.length ≤ 2) && rest.all Char.isDigit

/-- Digits (grouping already removed) with an optional 1-2 digit decimal
part: the numeric core of the amount shape. -/
def validCore (cs : List Char) : Bool :=
  !(cs.takeWhile Char.isDigit).isEmpty && validFrac (cs.dropWhile Char.isDigit)

/-- Modelled from the spec: `normalize_amount` (imported from `utils`,
which is outside src/) per §4.5 — strip currency symbols and surrounding
whitespace; parentheses or a minus prefix denote a negative number;
thousands separators are removed before numeric interpretation; a value
not matching `optional $, optional (, optional -, digits with optional
grouping, optional decimal, optional )` is passed through as a blank
cell rather than raising. -/
def normalize_amount (s : String) : String :=
  let t1 := stripChars s.data
  let t2 := (dropHead '$' t1).dropWhile isSpc
  let neg := headIs '(' t2 || headIs '-' (dropHead '(' t2)
  let t3 := dropHead '-' (dropHead '(' t2)
  let t4 := (dropHead ')' t3.reverse).reverse
  let core := t4.filter (fun c => !(c = ','))
  if validCore core then (if neg then ⟨'-' :: core⟩ else ⟨core⟩) else ""

theorem dropHead_cons_ne {x c : Char} {l : List Char} (h : ¬ (x = c)) :
    dropHead c (x :: l) = x :: l := by
  rw [dropHead, if_neg h]

theorem headIs_cons (c x : Char) (l : List Char) :
    headIs c (x :: l) = decide (x = c) := rfl

theorem dropWhile_cons_false {p : Char → Bool} {x : Char} {l : List Char}
    (h : p x = false) : (x :: l).dropWhile p = x :: l := by
  rw [List.dropWhile_cons, h]
  simp

theorem stripChars_eq_self_of_nonspace {l : List Char}
    (h : ∀ c ∈ l, isSpc c = false) : stripChars l = l := by
  unfold stripChars trimLeft trimRight
  have h1 : l.dropWhile isSpc = l := by
    cases l with
    | nil => rfl
    | cons x r => exact dropWhile_cons_false (h x (List.mem_cons_self _ _))
  rw [h1]
  cases hr : l.reverse with
  | nil =>
    rw [List.reverse_eq_nil_iff] at hr
    subst hr
    rfl
  | cons x r =>
    have hx : x ∈ l := by
      rw [← List.mem_reverse, hr]
      exact List.mem_cons_self _ _
    rw [dropWhile_cons_false (h x hx), ← hr, List.reverse_reverse]

/-- A digit-or-dot character is not whitespace and none of the amount
punctuation characters. -/
theorem digit_or_dot_facts {c : Char} (h : (c.isDigit || c = '.') = true) :
    isSpc c = false ∧ ¬ (c = '$') ∧ ¬ (c = '(') ∧ ¬ (c = '-') ∧
      ¬ (c = ')') ∧ (!(c = ',')) = true := by
  rcases Bool.or_eq_true _ _ ▸ h with hd | hd
  · refine ⟨?_, ?_, ?_, ?_, ?_, ?_⟩
    · by_contra hs
      rw [Bool.not_eq_false] at hs
      have hm : ((((c = ' ' ∨ c = '\t') ∨ c = '\n') ∨ c = '\r') ∨ c = '\x0b') ∨
          c = '\x0c' := by simpa [isSpc] using hs
      rcases hm with ((((rfl | rfl) | rfl) | rfl) | rfl) | rfl <;>
        exact absurd hd (by decide)
    all_goals (first
      | (rintro rfl; exact absurd hd (by decide))
      | (simp only [Bool.not_eq_true']
         rw [decide_eq_false_iff_not]
         rintro rfl; exact absurd hd (by decide)))
  · have hc : c = '.' := by simpa using hd
    subst hc
    refine ⟨by decide, by decide, by decide, by decide, by decide, by decide⟩

/-- Every character of a valid numeric core is a digit or a dot, and the
core starts with a digit. -/
theorem validCore_chars {core : List Char} (h : validCore core = true) :
    (∃ d r, core = d :: r ∧ d.isDigit = true) ∧
      ∀ c ∈ core, (c.isDigit || c = '.') = true := by
  unfold validCore at h
  rw [Bool.and_eq_true] at h
  obtain ⟨hds, hfrac⟩ := h
  have hsplit := List.takeWhile_append_dropWhile (p := Char.isDigit) (l := core)
  constructor
  · rcases hd : core.takeWhile Char.isDigit with _ | ⟨d, r⟩
    · rw [hd] at hds; cases hds
    · have hdd : d.isDigit = true := by
        have : d ∈ core.takeWhile Char.isDigit := by
          rw [hd]; exact List.mem_cons_self _ _
        exact List.mem_takeWhile_imp this
      rcases hc : core with _ | ⟨e, s⟩
      · rw [hc, List.takeWhile_nil] at hd; cases hd
      · refine ⟨e, s, rfl, ?_⟩
        have : core.takeWhile Char.isDigit = (e :: s).takeWhile Char.isDigit := by
          rw [hc]
        rw [hd, List.takeWhile_cons] at this
        by_cases he : e.isDigit = true
        · exact he
        · rw [Bool.not_eq_true] at he
          rw [he] at this
          simp at this
  · intro c hc
    rw [← hsplit] at hc
    rcases List.mem_append.mp hc with hc | hc
    · rw [Bool.or_eq_true]
      exact Or.inl (List.mem_takeWhile_imp hc)
    · unfold validFrac at hfrac
      rcases hr : core.dropWhile Char.isDigit with _ | ⟨x, rest⟩
      · rw [hr] at hc; cases hc
      · rw [hr] at hfrac hc
        simp only [Bool.and_eq_true, decide_eq_true_eq] at hfrac
        obtain ⟨⟨⟨hx, _⟩, _⟩, hall⟩ := hfrac
        rcases List.mem_cons.mp hc with rfl | hc
        · rw [hx]; simp
        · rw [Bool.or_eq_true]
          exact Or.inl (List.all_eq_true.mp hall c hc)

/-- `normalize_amount` is the identity on its own valid outputs. -/
theorem normalize_amount_fixed {core : List Char} (h : validCore core = true) :
    normalize_amount ⟨core⟩ = ⟨core⟩ ∧
      normalize_amount ⟨'-' :: core⟩ = ⟨'-' :: core⟩ := by
  obtain ⟨⟨d, r, hcore, hdd⟩, hmem⟩ := validCore_chars h
  have hfacts : ∀ c ∈ core, isSpc c = false ∧ ¬ (c = '$') ∧ ¬ (c = '(') ∧
      ¬ (c = '-') ∧ ¬ (c = ')') ∧ (!(c = ',')) = true :=
    fun c hc => digit_or_dot_facts (hmem c hc)
  have hdfacts := hfacts d (hcore ▸ List.mem_cons_self _ _)
  have hstrip : stripChars core = core :=
    stripChars_eq_self_of_nonspace (fun c hc => (hfacts c hc).1)
  have hparen : (dropHead ')' core.reverse).reverse = core := by
    cases hrv : core.reverse with
    | nil => rw [List.reverse_eq_nil_iff] at hrv; rw [hrv]; rfl
    | cons x rest =>
      have hx : x ∈ core := by
        rw [← List.mem_reverse, hrv]; exact List.mem_cons_self _ _
      rw [dropHead_cons_ne (hfacts x hx).2.2.2.2.1, ← hrv, List.reverse_reverse]
  have hfilter : core.filter (fun c => !(c = ',')) = core :=
    List.filter_eq_self.mpr (fun c hc => (hfacts c hc).2.2.2.2.2)
  constructor
  · show (let t1 := stripChars core
      let t2 := (dropHead '$' t1).dropWhile isSpc
      let neg := headIs '(' t2 || headIs '-' (dropHead '(' t2)
      let t3 := dropHead '-' (dropHead '(' t2)
      let t4 := (dropHead ')' t3.reverse).reverse
      let core' := t4.filter (fun c => !(c = ','))
      if validCore core' then
        (if neg then (⟨'-' :: core'⟩ : String) else ⟨core'⟩) else "") = ⟨core⟩
    simp only [hstrip]
    rw [hcore]
    rw [dropHead_cons_ne hdfacts.2.1, dropWhile_cons_false hdfacts.1]
    rw [dropHead_cons_ne hdfacts.2.2.1, dropHead_cons_ne hdfacts.2.2.2.1]
    have hneg : (headIs '(' (d :: r) || headIs '-' (d :: r)) = false := by
      unfold headIs
      simp only [Bool.or_eq_false_iff, decide_eq_false_iff_not]
      exact ⟨hdfacts.2.2.1, hdfacts.2.2.2.1⟩
    have h1 : headIs '(' (d :: r) = false := by
      rw [headIs_cons, decide_eq_false_iff_not]; exact hdfacts.2.2.1
    have h2 : headIs '-' (d :: r) = false := by
      rw [headIs_cons, decide_eq_false_iff_not]; exact hdfacts.2.2.2.1
    rw [h1, h2, ← hcore, hparen, hfilter, if_pos h]
    simp
  · show (let t1 := stripChars ('-' :: core)
      let t2 := (dropHead '$' t1).dropWhile isSpc
      let neg := headIs '(' t2 || headIs '-' (dropHead '(' t2)
      let t3 := dropHead '-' (dropHead '(' t2)
      let t4 := (dropHead ')' t3.reverse).reverse
      let core' := t4.filter (fun c => !(c = ','))
      if validCore core' then
        (if neg then (⟨'-' :: core'⟩ : String) else ⟨core'⟩) else "") =
      ⟨'-' :: core⟩
    have hstrip2 : stripChars ('-' :: core) = '-' :: core := by
      refine stripChars_eq_self_of_nonspace ?_
      intro c hc
      rcases List.mem_cons.mp hc with rfl | hc
      · decide
      · exact (hfacts c hc).1
    simp only [hstrip2]
    rw [dropHead_cons_ne (by decide : ¬ (('-' : Char) = '$')),
      dropWhile_cons_false (by decide : isSpc '-' = false)]
    rw [dropHead_cons_ne (by decide : ¬ (('-' : Char) = '('))]
    have h1 : headIs '(' ('-' :: core) = false := by
      rw [headIs_cons]; decide
    have h2 : headIs '-' ('-' :: core) = true := by
      rw [headIs_cons]; decide
    rw [h1, h2]
    have h3 : dropHead '-' ('-' :: core) = core := by
      rw [dropHead, if_pos rfl]
    rw [h3, hparen, hfilter, if_pos h]
    simp

/-- Every output of `normalize_amount` is blank or a (possibly negated)
valid numeric core. -/
theorem normalize_amount_shape (s : String) :
    normalize_amount s = "" ∨
      ∃ core, validCore core = true ∧
        (normalize_amount s = ⟨core⟩ ∨ normalize_amount s = ⟨'-' :: core⟩) := by
  unfold normalize_amount
  set core := ((dropHead ')' (dropHead '-' (dropHead '('
    ((dropHead '$' (stripChars s.data)).dropWhile isSpc))).reverse).reverse).filter
      (fun c => !(c = ',')) with hcore
  by_cases hv : validCore core = true
  · rw [if_pos hv]
    by_cases hneg : (headIs '(' ((dropHead '$' (stripChars s.data)).dropWhile isSpc) ||
        headIs '-' (dropHead '(' ((dropHead '$' (stripChars s.data)).dropWhile isSpc))) = true
    · rw [if_pos hneg]
      exact Or.inr ⟨core, hv, Or.inr rfl⟩
    · rw [if_neg hneg]
      exact Or.inr ⟨core, hv, Or.inl rfl⟩
  · rw [if_neg hv]
    exact Or.inl rfl

/-- **C4.** Amount normalization is idempotent: normalizing an
already-normalized value returns it unchanged. -/
theorem normalize_amount_idempotent (s : String) :
    normalize_amount (normalize_amount s) = normalize_amount s := by
  rcases normalize_amount_shape s with h | ⟨core, hv, h | h⟩
  · rw [h]; rfl
  · rw [h]
    exact (normalize_amount_fixed hv).1
  · rw [h]
    exact (normalize_amount_fixed hv).2

/-! ## Markdown-table candidate extraction — `_extract_md_tables`
(src/mistral_converter.py:397-424).  This is where non-rectangular input
is handled: a data row is appended only `if len(row) == len(header)`. -/

/-- Python `line.lstrip().startswith("|")`. -/
def isRowLine (s : String) : Bool := headIs '|' (s.data.dropWhile isSpc)

/-- Python `set(line.strip()) <= {"|", "-", " ", ":"}`: every character of
the stripped line is pipe, dash, space or colon. -/
def isSepLine (s : String) : Bool :=
  (stripChars s.data).all (fun c => c = '|' || c = '-' || c = ' ' || c = ':')

/-- Python `str.strip("|")`: remove every leading and trailing `|`. -/
def stripPipes (l : List Char) : List Char :=
  ((l.dropWhile (fun c => c = '|')).reverse.dropWhile (fun c => c = '|')).reverse

/-- Python `str.split("|")`: split on every pipe, keeping empty pieces. -/
def splitOnPipe : List Char → List (List Char)
  | [] => [[]]
  | c :: r =>
    if c = '|' then [] :: splitOnPipe r
    else
      match splitOnPipe r with
      | [] => [[c]]
      | g :: gs => (c :: g) :: gs

/-- `[c.strip() for c in line.strip().strip("|").split("|")]`. -/
def splitRow (line : String) : List String :=
  (splitOnPipe (stripPipes (stripChars line.data))).map
    (fun cs => (⟨stripChars cs⟩ : String))

/-- The `while i < len(lines)` loop of `_extract_md_tables`.  `fuel`
bounds the number of loop iterations; every iteration advances `i` by at
least one, so `lines.length` iterations always suffice and the `0` case
is unreachable from the wrapper below. -/
def extractMdTablesAux (minCols minRows : Nat) :
    Nat → List String → List Candidate
  | 0, _ => []
  | _ + 1, [] => []
  | _ + 1, [_] => []
  | fuel + 1, l1 :: l2 :: rest =>
    if isRowLine l1 && isSepLine l2 then
      let header := splitRow l1
      let rows := ((rest.takeWhile isRowLine).map splitRow).filter
        (fun r => decide (r.length = header.length))
      (if decide (minCols ≤ header.length) && decide (minRows ≤ rows.length)
       then [Candidate.mk header rows] else []) ++
        extractMdTablesAux minCols minRows fuel (rest.dropWhile isRowLine)
    else
      extractMdTablesAux minCols minRows fuel (l2 :: rest)

/-- Embedding of `_extract_md_tables` on the `md.splitlines()` result:
collect each pipe table whose separator row follows its header, keeping
only data rows whose cell count equals the header's. -/
def _extract_md_tables (minCols minRows : Nat) (lines : List String) :
    List Candidate :=
  extractMdTablesAux minCols minRows lines.length lines

/-- **C8 counterexample.** On a table whose data rows are not
rectangular, the extractor *drops* the short row `|1|` and the long row
`|6|7|8|` outright: the claim's right-padded row `["1", ""]` and
truncated row `["6", "7"]` appear nowhere in the output. -/
theorem md_rows_dropped_not_padded_or_truncated :
    _extract_md_tables 2 2
        ["|a|b|", "|---|---|", "|1|", "|2|3|", "|6|7|8|", "|4|5|"] =
      [Candidate.mk ["a", "b"] [["2", "3"], ["4", "5"]]] ∧
      ∀ t ∈ _extract_md_tables 2 2
          ["|a|b|", "|---|---|", "|1|", "|2|3|", "|6|7|8|", "|4|5|"],
        ["1", ""] ∉ t.rows ∧ ["6", "7"] ∉ t.rows := by
  decide

theorem extractMdTablesAux_rectangular (minCols minRows : Nat) :
    ∀ fuel lines t, t ∈ extractMdTablesAux minCols minRows fuel lines →
      ∀ r ∈ t.rows, r.length = t.columns.length := by
  intro fuel
  induction fuel with
  | zero => intro lines t ht; cases ht
  | succ n ih =>
    intro lines t ht
    match lines with
    | [] => cases ht
    | [_] => cases ht
    | l1 :: l2 :: rest =>
      rw [extractMdTablesAux] at ht
      by_cases hc : (isRowLine l1 && isSepLine l2) = true
      · rw [if_pos hc] at ht
        rcases List.mem_append.mp ht with hm | hm
        · by_cases hthr : (decide (minCols ≤ (splitRow l1).length) &&
              decide (minRows ≤ (((rest.takeWhile isRowLine).map splitRow).filter
                (fun r => decide (r.length = (splitRow l1).length))).length)) = true
          · rw [if_pos hthr] at hm
            have ht1 := List.mem_singleton.mp hm
            subst ht1
            intro r hr
            have := List.mem_filter.mp hr
            simpa using this.2
          · rw [if_neg hthr] at hm
            cases hm
        · exact ih _ t hm
      · rw [if_neg hc] at ht
        exact ih _ t ht

/-- **C8 (amended).** Every candidate produced by the markdown-table
extractor is rectangular: rows whose cell count differs from the header's
are dropped (neither padded nor truncated), so each kept row has exactly
the header's width; the extraction itself is total and never raises. -/
theorem extract_md_tables_rectangular (minCols minRows : Nat)
    (lines : List String) :
    ∀ t ∈ _extract_md_tables minCols minRows lines,
      ∀ r ∈ t.rows, r.length = t.columns.length := by
  intro t ht
  exact extractMdTablesAux_rectangular minCols minRows lines.length lines t ht

/-- Witness for C8 (amended) on a concrete well-formed table. -/
theorem extract_md_tables_rectangular_witness :
    (["2", "3"] : List String).length =
      (["a", "b"] : List String).length :=
  extract_md_tables_rectangular 2 2 ["|a|b|", "|---|---|", "|2|3|", "|4|5|"]
    (Candidate.mk ["a", "b"] [["2", "3"], ["4", "5"]])
    (by decide)
    ["2", "3"]
    (by decide)

/-! ## Account Splitter — `reshape_financial_table`
(src/local_converter.py:750-851).  The splitter scans the non-month
columns for the one whose values best match
`^\s*\(?\d{3,10}\)?(?:\s*[-–—]?\s+|\s+)(?=[A-Za-z]).+` (ratio measured
over non-empty values), and if the best ratio reaches 0.15 splits that
column with `^\s*\(?(\d{3,10})\)?(?:\s*[-–—]?\s+|\s+)(.+?)\s*$` into
`Acct` / `Account Title`, dropping the source column; otherwise a looser
per-column fallback with threshold 0.30 runs against the `acct_col`
candidate.  Ratio comparisons are embedded exactly via
cross-multiplication of the integer counts. -/

/-- One pandas column: a name and its cell values. -/
structure Column where
  name : String
  values : List String
deriving DecidableEq, Repr

/-- `df[name]`: the values of the first column with the given name. -/
def getCol (cols : List Column) (n : String) : Option (List String) :=
  (cols.find? (fun c => c.name = n)).map Column.values

/-- The 14 amount-column names used by `reshape_financial_table`. -/
def reshape_months : List String :=
  ["Beginning Balance", "January", "February", "March", "April", "May",
   "June", "July", "August", "September", "October", "November",
   "December", "Current Balance"]

/-- `_is_month_col`: the normalized name contains a normalized
amount-column name. -/
def isMonthCol (name : String) : Bool :=
  reshape_months.any (fun m => strContains (normAZ name) (normAZ m))

def isAsciiLetter (c : Char) : Bool :=
  ('A' ≤ c && c ≤ 'Z') || ('a' ≤ c && c ≤ 'z')

/-- The dash alternatives `[-–—]` of the split patterns. -/
def isDashChar (c : Char) : Bool := c = '-' || c = '–' || c = '—'

/-- Does the list start with a character satisfying `p`? -/
def headSat (p : Char → Bool) : List Char → Bool
  | [] => false
  | c :: _ => p c

/-- Prefix match of the ratio pattern
`^\s*\(?\d{3,10}\)?(?:\s*[-–—]?\s+|\s+)(?=[A-Za-z]).+`:
optional paren-wrapped 3-10 digit code, a separator that is either
whitespace or dash-with-whitespace, then a letter. -/
def matchesCodeTitle (s : String) : Bool :=
  let t := dropHead '(' (s.data.dropWhile isSpc)
  let ds := t.takeWhile Char.isDigit
  let r := dropHead ')' (t.dropWhile Char.isDigit)
  (decide (3 ≤ ds.length) && decide (ds.length ≤ 10)) &&
    (let sp := r.takeWhile isSpc
     let body := r.dropWhile isSpc
     (!sp.isEmpty && headSat isAsciiLetter body) ||
       (match body with
        | d :: t2 =>
          isDashChar d &&
            (!(t2.takeWhile isSpc).isEmpty &&
              headSat isAsciiLetter (t2.dropWhile isSpc))
        | [] => false))

/-- Full match of the extraction pattern
`^\s*\(?(\d{3,10})\)?(?:\s*[-–—]?\s+|\s+)(.+?)\s*$`, returning the code
and the (right-trimmed, possibly empty after strip) title, resolving the
pattern's backtracking deterministically. -/
def extractCodeTitle (s : String) : Option (String × String) :=
  let t := dropHead '(' (s.data.dropWhile isSpc)
  let ds := t.takeWhile Char.isDigit
  let r := dropHead ')' (t.dropWhile Char.isDigit)
  if decide (3 ≤ ds.length) && decide (ds.length ≤ 10) then
    let sp := r.takeWhile isSpc
    let body := r.dropWhile isSpc
    match body with
    | [] =>
      -- only whitespace after the code: `\s+` must leave one character
      -- for the lazy title, which then strips to the empty string
      if 2 ≤ sp.length then some (⟨ds⟩, "") else none
    | d :: t2 =>
      if isDashChar d then
        let sp2 := t2.takeWhile isSpc
        let b2 := t2.dropWhile isSpc
        if !b2.isEmpty then
          if !sp2.isEmpty then some (⟨ds⟩, ⟨trimRight b2⟩)
          else if !sp.isEmpty then some (⟨ds⟩, ⟨trimRight body⟩)
          else none
        else
          if 2 ≤ sp2.length then some (⟨ds⟩, "")
          else if !sp.isEmpty then some (⟨ds⟩, ⟨[d]⟩)
          else none
      else
        if !sp.isEmpty then some (⟨ds⟩, ⟨trimRight body⟩) else none
  else none

/-- The code extracted from one cell:
`split["_code"].fillna("").astype(str).str.strip()`. -/
def strictCode (v : String) : String :=
  strip (((extractCodeTitle v).map Prod.fst).getD "")

/-- The title extracted from one cell:
`split["_title"].fillna("").astype(str).str.strip()`. -/
def strictTitle (v : String) : String :=
  strip (((extractCodeTitle v).map Prod.snd).getD "")

/-- The best-column scan of the splitter: over the non-month columns (the
`[:max(8, len(non_month_cols))]` slice is the whole list), keep the
column maximizing `(matches & nonempty)/nonempty`, replacing the current
best only on a strictly larger ratio; columns with no non-empty value are
skipped.  The running best ratio is kept as the exact fraction
`(num, den)` with `den > 0`, and `ratio > best_ratio` is the
cross-multiplied comparison. -/
def bestCodeCol (cols : List Column) : Option Column × Nat × Nat :=
  let nonMonth := cols.filter (fun c => !isMonthCol c.name)
  (nonMonth.take (max 8 nonMonth.length)).foldl
    (fun best c =>
      let n := c.values.countP (fun v => !(strip v = ""))
      let m := c.values.countP (fun v => matchesCodeTitle v && !(strip v = ""))
      if n = 0 then best
      else if best.2.1 * n < m * best.2.2 then (some c, m, n) else best)
    (none, 0, 1)

/-- Assign `df["Acct"] = codes` (overwriting if present, else inserting
at position 0) and `df["Account Title"] = titles` (overwriting if
present, else inserting right after `Acct`). -/
def insertAfter (target : String) (newc : Column) : List Column → List Column
  | [] => [newc]
  | c :: rest =>
    if c.name = target then c :: newc :: rest
    else c :: insertAfter target newc rest

def setAcctTitle (cols : List Column) (codes titles : List String) :
    List Column :=
  let cols1 :=
    if cols.any (fun c => c.name = "Acct")
    then cols.map (fun c =>
      if c.name = "Acct" then { c with values := codes } else c)
    else { name := "Acct", values := codes } :: cols
  if cols1.any (fun c => c.name = "Account Title")
  then cols1.map (fun c =>
    if c.name = "Account Title" then { c with values := titles } else c)
  else insertAfter "Acct" { name := "Account Title", values := titles } cols1

/-- The main split branch (src/local_converter.py:781-812): set
`Acct`/`Account Title` from the strict extraction of the best column,
drop that source column, then drop near-duplicate acct-ish columns. -/
def applySplitStrict (cols : List Column) (bcName : String) : List Column :=
  let ser := (getCol cols bcName).getD []
  let cols2 := setAcctTitle cols (ser.map strictCode) (ser.map strictTitle)
  let cols3 := cols2.filter (fun c => !(c.name = bcName))
  cols3.filter (fun c =>
    !((normAZ c.name = "acct" || normAZ c.name = "account" ||
        normAZ c.name = "accounttitle") &&
      !(c.name = "Acct") && !(c.name = "Account Title")))

/-- Full match of the fallback pattern
`^\s*(\d{3,10})\s*(?:-|–|—)?\s*(.+?)\s*$` — all separators optional, so a
4+-digit run alone matches by splitting off its last digit. -/
def extractCodeTitleLoose (s : String) : Option (String × String) :=
  let t := s.data.dropWhile isSpc
  let ds := t.takeWhile Char.isDigit
  if ds.length < 3 then none
  else
    let k := min 10 ds.length
    let rest := t.drop k
    if !rest.isEmpty then
      let body := rest.dropWhile isSpc
      match body with
      | [] => some (⟨t.take k⟩, "")
      | d :: t2 =>
        if isDashChar d then
          let b2 := t2.dropWhile isSpc
          if !b2.isEmpty then some (⟨t.take k⟩, ⟨trimRight b2⟩)
          else if t2.isEmpty then some (⟨t.take k⟩, ⟨[d]⟩)
          else some (⟨t.take k⟩, "")
        else some (⟨t.take k⟩, ⟨trimRight body⟩)
    else if 4 ≤ ds.length then
      some (⟨ds.take (ds.length - 1)⟩, ⟨ds.drop (ds.length - 1)⟩)
    else none

def looseCode (v : String) : String :=
  strip (((extractCodeTitleLoose v).map Prod.fst).getD "")

def looseTitle (v : String) : String :=
  strip (((extractCodeTitleLoose v).map Prod.snd).getD "")

/-- The fallback branch (src/local_converter.py:813-851): measure the
loose-pattern match ratio of `acct_col` over non-empty values (with
`max(1, nonempty)` as denominator) and at `ratio ≥ 0.30` set
`Acct`/`Account Title` from the loose extraction, dropping `acct_col`
unless it is one of the two canonical names. -/
def fallbackSplit (cols : List Column) (acctCol : String) : List Column :=
  let ser := (getCol cols acctCol).getD []
  let n := ser.countP (fun v => !(strip v = ""))
  let hits := ser.countP (fun v =>
    (extractCodeTitleLoose v).isSome && !(strip v = ""))
  if 3 * max 1 n ≤ 10 * hits then
    let cols2 := setAcctTitle cols (ser.map looseCode) (ser.map looseTitle)
    if (cols.any (fun c => c.name = acctCol)) &&
        !(acctCol = "Acct") && !(acctCol = "Account Title")
    then cols2.filter (fun c => !(c.name = acctCol))
    else cols2
  else cols

/-- The Account Splitter stage of `reshape_financial_table`: run the
best-column split when its ratio reaches 0.15, otherwise the 0.30
fallback against `acct_col`. -/
def account_splitter (cols : List Column) (acctCol : String) : List Column :=
  match bestCodeCol cols with
  | (some bc, m, n) =>
    if 3 * n ≤ 20 * m then applySplitStrict cols bc.name
    else fallbackSplit cols acctCol
  | (none, _, _) => fallbackSplit cols acctCol

/-! ### Column-lookup lemmas for the splitter -/

theorem getCol_filter (l : List Column) (p : Column → Bool) (n : String)
    (h : ∀ c ∈ l, c.name = n → p c = true) :
    getCol (l.filter p) n = getCol l n := by
  induction l with
  | nil => rfl
  | cons c rest ih =>
    by_cases hc : c.name = n
    · have hp := h c (List.mem_cons_self _ _) hc
      rw [List.filter_cons, if_pos hp]
      unfold getCol
      rw [List.find?_cons_of_pos _ (by simpa using hc),
        List.find?_cons_of_pos _ (by simpa using hc)]
    · have hrest := fun x hx => h x (List.mem_cons_of_mem _ hx)
      rw [List.filter_cons]
      by_cases hp : p c = true
      · rw [if_pos hp]
        unfold getCol
        rw [List.find?_cons_of_neg _ (by simpa using hc),
          List.find?_cons_of_neg _ (by simpa using hc)]
        exact ih hrest
      · rw [if_neg hp]
        unfold getCol at ih ⊢
        rw [List.find?_cons_of_neg _ (by simpa using hc)]
        exact ih hrest

theorem getCol_map_set (l : List Column) (target : String) (vals : List String)
    (h : l.any (fun c => c.name = target) = true) :
    getCol (l.map (fun c =>
      if c.name = target then { c with values := vals } else c)) target =
      some vals := by
  induction l with
  | nil => cases h
  | cons c rest ih =>
    rw [List.map_cons]
    by_cases hc : c.name = target
    · rw [if_pos hc]
      unfold getCol
      rw [List.find?_cons_of_pos _ (by simpa using hc)]
      rfl
    · rw [if_neg hc]
      unfold getCol at ih ⊢
      rw [List.find?_cons_of_neg _ (by simpa using hc)]
      refine ih ?_
      rcases List.any_eq_true.mp h with ⟨w, hw, hwt⟩
      rcases List.mem_cons.mp hw with rfl | hw
      · exact absurd (by simpa using hwt) hc
      · exact List.any_eq_true.mpr ⟨w, hw, hwt⟩

theorem getCol_map_set_other (l : List Column) (target : String)
    (vals : List String) (n : String) (hn : ¬ (n = target)) :
    getCol (l.map (fun c =>
      if c.name = target then { c with values := vals } else c)) n =
      getCol l n := by
  induction l with
  | nil => rfl
  | cons c rest ih =>
    rw [List.map_cons]
    by_cases hc : c.name = target
    · rw [if_pos hc]
      unfold getCol at ih ⊢
      have hcn : ¬ (c.name = n) := by rw [hc]; intro h; exact hn h.symm
      rw [List.find?_cons_of_neg _ (by simpa using hcn),
        List.find?_cons_of_neg _ (by simpa using hcn)]
      exact ih
    · rw [if_neg hc]
      unfold getCol at ih ⊢
      by_cases hcn : c.name = n
      · rw [List.find?_cons_of_pos _ (by simpa using hcn),
          List.find?_cons_of_pos _ (by simpa using hcn)]
      · rw [List.find?_cons_of_neg _ (by simpa using hcn),
          List.find?_cons_of_neg _ (by simpa using hcn)]
        exact ih

theorem getCol_insertAfter_other (l : List Column) (target : String)
    (newc : Column) (n : String) (hn : ¬ (newc.name = n)) :
    getCol (insertAfter target newc l) n = getCol l n := by
  induction l with
  | nil =>
    unfold insertAfter getCol
    rw [List.find?_cons_of_neg _ (by simpa using hn)]
  | cons c rest ih =>
    rw [insertAfter]
    by_cases hc : c.name = target
    · rw [if_pos hc]
      unfold getCol
      by_cases hcn : c.name = n
      · rw [List.find?_cons_of_pos _ (by simpa using hcn),
          List.find?_cons_of_pos _ (by simpa using hcn)]
      · rw [List.find?_cons_of_neg _ (by simpa using hcn),
          List.find?_cons_of_neg _ (by simpa using hn),
          List.find?_cons_of_neg _ (by simpa using hcn)]
    · rw [if_neg hc]
      unfold getCol at ih ⊢
      by_cases hcn : c.name = n
      · rw [List.find?_cons_of_pos _ (by simpa using hcn),
          List.find?_cons_of_pos _ (by simpa using hcn)]
      · rw [List.find?_cons_of_neg _ (by simpa using hcn),
          List.find?_cons_of_neg _ (by simpa using hcn)]
        exact ih

theorem getCol_insertAfter_self (l : List Column) (target : String)
    (newc : Column)
    (htgt : ∃ c ∈ l, c.name = target)
    (habs : ∀ c ∈ l, ¬ (c.name = newc.name)) :
    getCol (insertAfter target newc l) newc.name = some newc.values := by
  induction l with
  | nil =>
    rcases htgt with ⟨c, hc, _⟩
    cases hc
  | cons c rest ih =>
    rw [insertAfter]
    by_cases hc : c.name = target
    · rw [if_pos hc]
      unfold getCol
      have hcn : ¬ (c.name = newc.name) := habs c (List.mem_cons_self _ _)
      rw [List.find?_cons_of_neg _ (by simpa using hcn),
        List.find?_cons_of_pos _ (by simp)]
      rfl
    · rw [if_neg hc]
      unfold getCol at ih ⊢
      have hcn : ¬ (c.name = newc.name) := habs c (List.mem_cons_self _ _)
      rw [List.find?_cons_of_neg _ (by simpa using hcn)]
      refine ih ?_ (fun x hx => habs x (List.mem_cons_of_mem _ hx))
      rcases htgt with ⟨w, hw, hwt⟩
      rcases List.mem_cons.mp hw with rfl | hw
      · exact absurd hwt hc
      · exact ⟨w, hw, hwt⟩

/-- `setAcctTitle` makes `df["Acct"]` the code series and
`df["Account Title"]` the title series, whether those columns already
existed (overwrite) or not (insert). -/
theorem getCol_setAcctTitle (cols : List Column) (codes titles : List String) :
    getCol (setAcctTitle cols codes titles) "Acct" = some codes ∧
      getCol (setAcctTitle cols codes titles) "Account Title" = some titles := by
  unfold setAcctTitle
  set cols1 :=
    (if cols.any (fun c => c.name = "Acct")
     then cols.map (fun c =>
       if c.name = "Acct" then { c with values := codes } else c)
     else { name := "Acct", values := codes } :: cols) with hcols1
  have hacct1 : getCol cols1 "Acct" = some codes := by
    rw [hcols1]
    by_cases h : cols.any (fun c => c.name = "Acct") = true
    · rw [if_pos h]
      exact getCol_map_set cols "Acct" codes h
    · rw [if_neg h]
      unfold getCol
      rw [List.find?_cons_of_pos _ (by simp)]
      rfl
  have hany1 : cols1.any (fun c => c.name = "Acct") = true := by
    rw [hcols1]
    by_cases h : cols.any (fun c => c.name = "Acct") = true
    · rw [if_pos h]
      rcases List.any_eq_true.mp h with ⟨w, hw, hwt⟩
      refine List.any_eq_true.mpr ⟨if w.name = "Acct" then { w with values := codes } else w, ?_, ?_⟩
      · exact List.mem_map.mpr ⟨w, hw, rfl⟩
      · rw [if_pos (by simpa using hwt)]
        simpa using hwt
    · rw [if_neg h]
      exact List.any_eq_true.mpr ⟨_, List.mem_cons_self _ _, by simp⟩
  by_cases h2 : cols1.any (fun c => c.name = "Account Title") = true
  · rw [if_pos h2]
    constructor
    · rw [getCol_map_set_other cols1 "Account Title" titles "Acct" (by decide)]
      exact hacct1
    · exact getCol_map_set cols1 "Account Title" titles h2
  · rw [if_neg h2]
    have habs : ∀ c ∈ cols1, ¬ (c.name = "Account Title") := by
      intro c hc hname
      exact h2 (List.any_eq_true.mpr ⟨c, hc, by simpa using hname⟩)
    constructor
    · rw [getCol_insertAfter_other cols1 "Acct"
        { name := "Account Title", values := titles } "Acct" (by simp)]
      exact hacct1
    · rcases List.any_eq_true.mp hany1 with ⟨w, hw, hwt⟩
      exact getCol_insertAfter_self cols1 "Acct"
        { name := "Account Title", values := titles }
        ⟨w, hw, by simpa using hwt⟩ habs

/-- Through the two final filters of `applySplitStrict`, lookups of the
two canonical columns are unchanged, and no column named like the source
column survives. -/
theorem applySplitStrict_getCol (cols : List Column) (bcName : String)
    (h1 : ¬ (bcName = "Acct")) (h2 : ¬ (bcName = "Account Title")) :
    getCol (applySplitStrict cols bcName) "Acct" =
      some (((getCol cols bcName).getD []).map strictCode) ∧
    getCol (applySplitStrict cols bcName) "Account Title" =
      some (((getCol cols bcName).getD []).map strictTitle) ∧
    ∀ c ∈ applySplitStrict cols bcName, ¬ (c.name = bcName) := by
  unfold applySplitStrict
  have hset := getCol_setAcctTitle cols
    (((getCol cols bcName).getD []).map strictCode)
    (((getCol cols bcName).getD []).map strictTitle)
  have hkeepA : ∀ (l : List Column),
      ∀ c ∈ l, c.name = "Acct" → (!(c.name = bcName)) = true := by
    intro l c _ hc
    simp only [Bool.not_eq_true', decide_eq_false_iff_not]
    rw [hc]
    intro heq
    exact h1 heq.symm
  have hkeepT : ∀ (l : List Column),
      ∀ c ∈ l, c.name = "Account Title" → (!(c.name = bcName)) = true := by
    intro l c _ hc
    simp only [Bool.not_eq_true', decide_eq_false_iff_not]
    rw [hc]
    intro heq
    exact h2 heq.symm
  have hdupA : ∀ (l : List Column), ∀ c ∈ l, c.name = "Acct" →
      (!((normAZ c.name = "acct" || normAZ c.name = "account" ||
          normAZ c.name = "accounttitle") &&
        !(c.name = "Acct") && !(c.name = "Account Title"))) = true := by
    intro l c _ hc
    rw [hc]
    decide
  have hdupT : ∀ (l : List Column), ∀ c ∈ l, c.name = "Account Title" →
      (!((normAZ c.name = "acct" || normAZ c.name = "account" ||
          normAZ c.name = "accounttitle") &&
        !(c.name = "Acct") && !(c.name = "Account Title"))) = true := by
    intro l c _ hc
    rw [hc]
    decide
  refine ⟨?_, ?_, ?_⟩
  · rw [getCol_filter _ _ _ (hdupA _), getCol_filter _ _ _ (hkeepA _)]
    exact hset.1
  · rw [getCol_filter _ _ _ (hdupT _), getCol_filter _ _ _ (hkeepT _)]
    exact hset.2
  · intro c hc
    have hc1 := (List.mem_filter.mp hc).1
    have := (List.mem_filter.mp hc1).2
    simpa using this

/-- The column returned by the best-column scan is one of the input
columns. -/
theorem bestCodeCol_mem (cols : List Column) (bc : Column) (m n : Nat)
    (h : bestCodeCol cols = (some bc, m, n)) : bc ∈ cols := by
  have hfold : ∀ (l : List Column) (acc : Option Column × Nat × Nat)
      (bc : Column) (m n : Nat),
      l.foldl (fun best c =>
        if c.values.countP (fun v => !(strip v = "")) = 0 then best
        else if best.2.1 * c.values.countP (fun v => !(strip v = "")) <
            c.values.countP (fun v => matchesCodeTitle v && !(strip v = "")) *
              best.2.2
        then (some c,
          c.values.countP (fun v => matchesCodeTitle v && !(strip v = "")),
          c.values.countP (fun v => !(strip v = "")))
        else best)
        acc = (some bc, m, n) →
      acc.1 = some bc ∨ bc ∈ l := by
    intro l
    induction l with
    | nil =>
      intro acc bc m n hacc
      rw [List.foldl_nil] at hacc
      left
      rw [hacc]
    | cons c cs ih =>
      intro acc bc m n hacc
      rw [List.foldl_cons] at hacc
      rcases ih _ bc m n hacc with h | h
      · by_cases hz : c.values.countP (fun v => !(strip v = "")) = 0
        · rw [if_pos hz] at h
          exact Or.inl h
        · rw [if_neg hz] at h
          by_cases hlt : acc.2.1 * c.values.countP (fun v => !(strip v = "")) <
              c.values.countP (fun v => matchesCodeTitle v && !(strip v = "")) *
                acc.2.2
          · rw [if_pos hlt] at h
            right
            rw [show bc = c from (Option.some.inj h).symm]
            exact List.mem_cons_self _ _
          · rw [if_neg hlt] at h
            exact Or.inl h
      · exact Or.inr (List.mem_cons_of_mem _ h)
  unfold bestCodeCol at h
  rcases hfold _ _ _ _ _ h with h' | h'
  · cases h'
  · exact List.mem_filter.mp ((List.take_sublist _ _).subset h') |>.1

/-- With distinct column names, `df[name]` of a member column is its
value list. -/
theorem getCol_eq_of_nodup (cols : List Column) (bc : Column)
    (hmem : bc ∈ cols) (hnodup : (cols.map Column.name).Nodup) :
    getCol cols bc.name = some bc.values := by
  induction cols with
  | nil => cases hmem
  | cons c rest ih =>
    rw [List.map_cons, List.nodup_cons] at hnodup
    rcases List.mem_cons.mp hmem with rfl | hmem
    · unfold getCol
      rw [List.find?_cons_of_pos _ (by simp)]
      rfl
    · have hcn : ¬ (c.name = bc.name) := by
        intro hc
        exact hnodup.1 (hc ▸ List.mem_map.mpr ⟨bc, hmem, rfl⟩)
      unfold getCol at ih ⊢
      rw [List.find?_cons_of_neg _ (by simpa using hcn)]
      exact ih hmem hnodup.2

/-- **C6.** When the best non-month column's code+title match ratio over
its non-empty values reaches 15% (`3·den ≤ 20·num`) and the candidate has
no separate `Acct` column, the Account Splitter sets `Acct` to the
extracted codes, `Account Title` to the extracted titles, and drops the
source column; on `"50113 Cleaning - Other"` the extraction yields
`Acct = "50113"` and `Account Title = "Cleaning - Other"`. -/
theorem account_splitter_splits_combined (cols : List Column)
    (acctCol : String) (bc : Column) (m n : Nat)
    (hnodup : (cols.map Column.name).Nodup)
    (hbest : bestCodeCol cols = (some bc, m, n))
    (hratio : 3 * n ≤ 20 * m)
    (hnoacct : ∀ c ∈ cols, ¬ (c.name = "Acct"))
    (hnotitle : ¬ (bc.name = "Account Title")) :
    getCol (account_splitter cols acctCol) "Acct" =
      some (bc.values.map strictCode) ∧
    getCol (account_splitter cols acctCol) "Account Title" =
      some (bc.values.map strictTitle) ∧
    (∀ c ∈ account_splitter cols acctCol, ¬ (c.name = bc.name)) ∧
    strictCode "50113 Cleaning - Other" = "50113" ∧
    strictTitle "50113 Cleaning - Other" = "Cleaning - Other" := by
  have hmem := bestCodeCol_mem cols bc m n hbest
  have hnacct : ¬ (bc.name = "Acct") := hnoacct bc hmem
  have hser : getCol cols bc.name = some bc.values :=
    getCol_eq_of_nodup cols bc hmem hnodup
  have hsplit : account_splitter cols acctCol = applySplitStrict cols bc.name := by
    unfold account_splitter
    rw [hbest]
    show (if 3 * n ≤ 20 * m then applySplitStrict cols bc.name
      else fallbackSplit cols acctCol) = applySplitStrict cols bc.name
    rw [if_pos hratio]
  have hmain := applySplitStrict_getCol cols bc.name hnacct hnotitle
  rw [hser] at hmain
  rw [hsplit]
  exact ⟨hmain.1, hmain.2.1, hmain.2.2, by decide, by decide⟩

/-- Witness for C6 at the concrete one-column candidate
`[("Combined", ["50113 Cleaning - Other"])]`. -/
theorem account_splitter_splits_combined_witness :
    getCol (account_splitter [Column.mk "Combined" ["50113 Cleaning - Other"]]
        "Combined") "Acct" = some ["50113"] ∧
      getCol (account_splitter [Column.mk "Combined" ["50113 Cleaning - Other"]]
        "Combined") "Account Title" = some ["Cleaning - Other"] := by
  have h := account_splitter_splits_combined
    [Column.mk "Combined" ["50113 Cleaning - Other"]] "Combined"
    (Column.mk "Combined" ["50113 Cleaning - Other"]) 1 1
    (by decide) (by decide) (by decide)
    (by intro c hc; fin_cases hc; decide) (by decide)
  exact ⟨h.1, h.2.1⟩

/-- **C9 counterexample.** A candidate whose `Acct` column is already
populated (value `"9999"`) and whose combined column clears the 15%
threshold: the splitter *overwrites* the populated `Acct` column with the
split code `"50113"` instead of leaving it unchanged. -/
theorem account_splitter_overwrites_populated :
    getCol [Column.mk "Acct" ["9999"],
        Column.mk "Combined" ["50113 Cleaning - Other"]] "Acct" =
      some ["9999"] ∧
    account_splitter [Column.mk "Acct" ["9999"],
        Column.mk "Combined" ["50113 Cleaning - Other"]] "Acct" =
      [Column.mk "Acct" ["50113"],
       Column.mk "Account Title" ["Cleaning - Other"]] ∧
    getCol (account_splitter [Column.mk "Acct" ["9999"],
        Column.mk "Combined" ["50113 Cleaning - Other"]] "Acct") "Acct" ≠
      some ["9999"] := by
  refine ⟨by decide, by decide, by decide⟩

/-- **C9 (amended).** Whenever the local splitter's best-column branch
runs (best ratio ≥ 0.15 against a column other than the two canonical
ones), it sets `Acct` and `Account Title` to the split result even when
those columns were already populated by direct header mapping — existing
values are overwritten, not preserved.  (In the mistral path the splitter
only runs when neither column was mapped.) -/
theorem account_splitter_overwrites (cols : List Column)
    (acctCol : String) (bc : Column) (m n : Nat)
    (hnodup : (cols.map Column.name).Nodup)
    (hbest : bestCodeCol cols = (some bc, m, n))
    (hratio : 3 * n ≤ 20 * m)
    (hne1 : ¬ (bc.name = "Acct")) (hne2 : ¬ (bc.name = "Account Title")) :
    getCol (account_splitter cols acctCol) "Acct" =
      some (bc.values.map strictCode) ∧
    getCol (account_splitter cols acctCol) "Account Title" =
      some (bc.values.map strictTitle) := by
  have hmem := bestCodeCol_mem cols bc m n hbest
  have hser : getCol cols bc.name = some bc.values :=
    getCol_eq_of_nodup cols bc hmem hnodup
  have hsplit : account_splitter cols acctCol = applySplitStrict cols bc.name := by
    unfold account_splitter
    rw [hbest]
    show (if 3 * n ≤ 20 * m then applySplitStrict cols bc.name
      else fallbackSplit cols acctCol) = applySplitStrict cols bc.name
    rw [if_pos hratio]
  have hmain := applySplitStrict_getCol cols bc.name hne1 hne2
  rw [hser] at hmain
  rw [hsplit]
  exact ⟨hmain.1, hmain.2.1⟩

/-- Witness for C9 (amended) at the populated-`Acct` candidate: the
overwritten `Acct` column holds `["50113"]`, not the original
`["9999"]`. -/
theorem account_splitter_overwrites_witness :
    getCol (account_splitter [Column.mk "Acct" ["9999"],
        Column.mk "Combined" ["50113 Cleaning - Other"]] "Acct") "Acct" =
      some ["50113"] ∧
    getCol (account_splitter [Column.mk "Acct" ["9999"],
        Column.mk "Combined" ["50113 Cleaning - Other"]] "Acct")
        "Account Title" = some ["Cleaning - Other"] := by
  have h := account_splitter_overwrites
    [Column.mk "Acct" ["9999"], Column.mk "Combined" ["50113 Cleaning - Other"]]
    "Acct" (Column.mk "Combined" ["50113 Cleaning - Other"]) 1 1
    (by decide) (by decide) (by decide) (by decide) (by decide)
  exact h

end Spec2Proof
